import Mathlib

/-!
Verification of the secure peer-connection core of the
Quantum-Resistant Offline Secure Chat Application.

Byte strings are modelled as `List Nat` whose elements are < 256.
Python functions that can raise and be caught (returning `None`) are
modelled as `Option`-valued functions.
-/

namespace QRChat

/-! ### Base64 (as used by `QuantumCrypto.encrypt_message` / `decrypt_message`)

`base64.b64encode` groups the input bytes in threes, emits four alphabet
characters per group and pads the final partial group with `=` (ASCII 61).
`tbl` maps a 6-bit value to the ASCII code of its alphabet character. -/

def tbl (n : Nat) : Nat :=
  if n < 26 then 65 + n
  else if n < 52 then 71 + n
  else if n < 62 then n - 4
  else if n = 62 then 43
  else 47

def b64encode : List Nat → List Nat
  | [] => []
  | [b1] => [tbl (b1 / 4), tbl (b1 % 4 * 16), 61, 61]
  | [b1, b2] => [tbl (b1 / 4), tbl (b1 % 4 * 16 + b2 / 16), tbl (b2 % 16 * 4), 61]
  | b1 :: b2 :: b3 :: rest =>
      tbl (b1 / 4) :: tbl (b1 % 4 * 16 + b2 / 16) ::
        tbl (b2 % 16 * 4 + b3 / 64) :: tbl (b3 % 64) :: b64encode rest

def untbl (c : Nat) : Option Nat :=
  if 65 ≤ c ∧ c ≤ 90 then some (c - 65)
  else if 97 ≤ c ∧ c ≤ 122 then some (c - 71)
  else if 48 ≤ c ∧ c ≤ 57 then some (c + 4)
  else if c = 43 then some 62
  else if c = 47 then some 63
  else none

/-- `base64.b64decode`, on inputs of the shape produced by `b64encode`
(groups of four alphabet characters, `=`-padding only in the final group;
on other inputs Python additionally skips non-alphabet bytes, which no
claim exercises). Failure (`binascii.Error`) is `none`. -/
def b64decode : List Nat → Option (List Nat)
  | [] => some []
  | c1 :: c2 :: c3 :: c4 :: rest =>
    match untbl c1, untbl c2 with
    | some s1, some s2 =>
      if c3 = 61 then
        if c4 = 61 ∧ rest = [] then some [s1 * 4 + s2 / 16] else none
      else
        match untbl c3 with
        | some s3 =>
          if c4 = 61 then
            if rest = [] then some [s1 * 4 + s2 / 16, s2 % 16 * 16 + s3 / 4] else none
          else
            match untbl c4, b64decode rest with
            | some s4, some bs =>
                some ((s1 * 4 + s2 / 16) :: (s2 % 16 * 16 + s3 / 4) :: (s3 % 4 * 64 + s4) :: bs)
            | _, _ => none
        | none => none
    | _, _ => none
  | _ => none

theorem untbl_tbl : ∀ s < 64, untbl (tbl s) = some s := by decide

theorem tbl_ne_61 : ∀ s < 64, tbl s ≠ 61 := by decide

theorem b64_roundtrip : ∀ bs : List Nat, (∀ b ∈ bs, b < 256) →
    b64decode (b64encode bs) = some bs := by
  intro bs
  induction bs using b64encode.induct with
  | case1 =>
    intro _
    simp [b64encode, b64decode]
  | case2 b1 =>
    intro h
    have hb1 : b1 < 256 := h b1 (by simp)
    have e1 := untbl_tbl (b1 / 4) (by omega)
    have e2 := untbl_tbl (b1 % 4 * 16) (by omega)
    simp only [b64encode, b64decode, e1, e2, and_self, if_true, Option.some.injEq,
      List.cons.injEq, and_true]
    omega
  | case3 b1 b2 =>
    intro h
    have hb1 : b1 < 256 := h b1 (by simp)
    have hb2 : b2 < 256 := h b2 (by simp)
    have e1 := untbl_tbl (b1 / 4) (by omega)
    have e2 := untbl_tbl (b1 % 4 * 16 + b2 / 16) (by omega)
    have e3 := untbl_tbl (b2 % 16 * 4) (by omega)
    have n3 := tbl_ne_61 (b2 % 16 * 4) (by omega)
    simp only [b64encode, b64decode, e1, e2, e3, n3, if_false, ite_false, if_true, ite_true,
      Option.some.injEq, List.cons.injEq, and_true]
    norm_num
    constructor <;> omega
  | case4 b1 b2 b3 rest ih =>
    intro h
    have hb1 : b1 < 256 := h b1 (by simp)
    have hb2 : b2 < 256 := h b2 (by simp)
    have hb3 : b3 < 256 := h b3 (by simp)
    have hrest : ∀ b ∈ rest, b < 256 := fun b hb => h b (by simp [hb])
    have e1 := untbl_tbl (b1 / 4) (by omega)
    have e2 := untbl_tbl (b1 % 4 * 16 + b2 / 16) (by omega)
    have e3 := untbl_tbl (b2 % 16 * 4 + b3 / 64) (by omega)
    have e4 := untbl_tbl (b3 % 64) (by omega)
    have n3 := tbl_ne_61 (b2 % 16 * 4 + b3 / 64) (by omega)
    have n4 := tbl_ne_61 (b3 % 64) (by omega)
    have erec := ih hrest
    simp only [b64encode, b64decode, e1, e2, e3, e4, n3, n4, erec, if_false, ite_false,
      Option.some.injEq, List.cons.injEq, and_true]
    refine ⟨by omega, by omega, by omega⟩

/-! ### The XOR cipher of `QuantumCrypto.encrypt_message` / `decrypt_message`

The loop `encrypted.append(char ^ shared_secret[i % len(shared_secret)])`
XORs each byte with the shared secret cycled over the message. -/

def xorCycle (s m : List Nat) : List Nat :=
  List.zipWith (fun c k => c ^^^ k)
    m ((List.range m.length).map (fun i => s.getD (i % s.length) 0))

theorem length_xorCycle (s m : List Nat) : (xorCycle s m).length = m.length := by
  simp [xorCycle]

theorem getElem_xorCycle (s m : List Nat) (i : Nat) (hm : i < m.length)
    (h : i < (xorCycle s m).length) :
    (xorCycle s m)[i] = m[i] ^^^ s.getD (i % s.length) 0 := by
  simp [xorCycle, List.getElem_zipWith]

theorem xorCycle_xorCycle (s m : List Nat) : xorCycle s (xorCycle s m) = m := by
  apply List.ext_getElem
  · simp [length_xorCycle]
  · intro i h1 h2
    have hx : i < (xorCycle s m).length := by
      rw [length_xorCycle]
      exact h2
    rw [getElem_xorCycle s (xorCycle s m) i hx h1, getElem_xorCycle s m i h2 hx]
    exact Nat.xor_cancel_right _ _

theorem xorCycle_lt_256 (s m : List Nat) (hm : ∀ b ∈ m, b < 256) (hs : ∀ b ∈ s, b < 256) :
    ∀ b ∈ xorCycle s m, b < 256 := by
  intro b hb
  rcases List.mem_iff_getElem.1 hb with ⟨i, hi, rfl⟩
  have him : i < m.length := by
    have h0 := hi
    rw [length_xorCycle] at h0
    exact h0
  rw [getElem_xorCycle s m i him hi]
  have h1 : m[i] < 256 := hm _ (List.getElem_mem him)
  have h2 : s.getD (i % s.length) 0 < 256 := by
    rcases Nat.eq_zero_or_pos s.length with h0 | h0
    · rw [List.getD_eq_getElem?_getD, List.getElem?_eq_none (by omega)]
      norm_num
    · have hlt : i % s.length < s.length := Nat.mod_lt _ h0
      rw [List.getD_eq_getElem?_getD, List.getElem?_eq_getElem hlt]
      exact hs _ (List.getElem_mem hlt)
  have h256 : (256 : Nat) = 2 ^ 8 := by norm_num
  rw [h256] at h1 h2 ⊢
  exact Nat.xor_lt_two_pow h1 h2

/-- `QuantumCrypto.encrypt_message` (src/src/crypto/pqc.py:61-76), at the level
of the message's UTF-8 bytes.  An empty shared secret raises
`ZeroDivisionError` in `i % len(shared_secret)`, caught and turned into
`None`. -/
def encrypt_message (message shared_secret : List Nat) : Option (List Nat) :=
  if shared_secret.length = 0 then none
  else some (b64encode (xorCycle shared_secret message))

/-- `QuantumCrypto.decrypt_message` (src/src/crypto/pqc.py:78-92): base64
decode, then the same cyclic XOR; any exception yields `None`.  The final
`decrypted.decode('utf-8')` is the inverse of the UTF-8 encoding applied on
entry to `encrypt_message`, so the byte level is the faithful level for the
round trip. -/
def decrypt_message (encrypted_data shared_secret : List Nat) : Option (List Nat) :=
  match b64decode encrypted_data with
  | none => none
  | some bs =>
      if shared_secret.length = 0 then none
      else some (xorCycle shared_secret bs)

/-- C5: for every plaintext (as UTF-8 bytes) and every non-empty shared
secret, `decrypt_message (encrypt_message m s) s` returns `m`:
the XOR cipher of `QuantumCrypto` round-trips. -/
theorem C5_encrypt_decrypt_roundtrip (m s : List Nat)
    (hm : ∀ b ∈ m, b < 256) (hs : ∀ b ∈ s, b < 256) (hne : s ≠ []) :
    ∃ e, encrypt_message m s = some e ∧ decrypt_message e s = some m := by
  have hlen : s.length ≠ 0 := fun h => hne (List.length_eq_zero.1 h)
  refine ⟨b64encode (xorCycle s m), ?_, ?_⟩
  · simp [encrypt_message, hlen]
  · rw [decrypt_message, b64_roundtrip _ (xorCycle_lt_256 s m hm hs)]
    simp [hlen, xorCycle_xorCycle]

/-- Witness for C5 at the message "Hi" (UTF-8 bytes [72, 105]) and
shared secret bytes [1, 2]. -/
theorem C5_encrypt_decrypt_roundtrip_witness :
    ∃ e, encrypt_message [72, 105] [1, 2] = some e ∧
      decrypt_message e [1, 2] = some [72, 105] :=
  C5_encrypt_decrypt_roundtrip [72, 105] [1, 2] (by decide) (by decide) (by decide)

/-! ### KeyExchange (spec §4.1) -/

/-- Modelled from the spec: `QuantumCrypto.server_generate_kem_keypair`,
`server_public_bytes`, `client_encapsulate` and `server_finalize` are called
by `LANChat` (src/src/network/lan_chat.py:64-72, 111) but are absent from the
`QuantumCrypto` variant under src/.  The spec (§4.1) describes a KEM with a
classical Diffie-Hellman fallback in which "an ephemeral public key acts as
the ciphertext"; we model that fallback over the naturals modulo `p` with
generator `g`, the key object being the secret exponent itself. -/
def server_generate_kem_keypair (sk : Nat) : Nat := sk

/-- Modelled from the spec: the responder's public key bytes for the key
object returned by `server_generate_kem_keypair`. -/
def server_public_bytes (p g sk : Nat) : Nat := g ^ sk % p

/-- Modelled from the spec: the initiator's encapsulation of the responder's
public key, returning `(ciphertext, shared_secret)` where the ciphertext is
the initiator's ephemeral public key. -/
def client_encapsulate (p g pub eph : Nat) : Nat × Nat :=
  (g ^ eph % p, pub ^ eph % p)

/-- Modelled from the spec: the responder's decapsulation of the received
ciphertext using its key object. -/
def server_finalize (p sk blob : Nat) : Nat := blob ^ sk % p

/-- The two-message handshake as `LANChat` runs it: `_handle_client` sends
`server_public_bytes`, `connect_to_peer` answers with the blob from
`client_encapsulate` and stores its shared secret, `_handle_client` stores
`server_finalize` of the blob.  Result: (responder secret, initiator secret). -/
def lanHandshake (p g sk eph : Nat) : Nat × Nat :=
  let pub := server_public_bytes p g (server_generate_kem_keypair sk)
  let res := client_encapsulate p g pub eph
  (server_finalize p (server_generate_kem_keypair sk) res.1, res.2)

/-- C1: handshake symmetry — decapsulating on the responder side the
ciphertext produced by the initiator's encapsulation of the responder's
public key yields exactly the initiator's shared secret, so after the
two-message handshake both sides hold an identical shared secret. -/
theorem C1_handshake_symmetry (p g sk eph : Nat) :
    (lanHandshake p g sk eph).1 = (lanHandshake p g sk eph).2 ∧
    server_finalize p (server_generate_kem_keypair sk)
        (client_encapsulate p g (server_public_bytes p g (server_generate_kem_keypair sk)) eph).1
      = (client_encapsulate p g (server_public_bytes p g (server_generate_kem_keypair sk)) eph).2 := by
  have key : (g ^ eph % p) ^ sk % p = (g ^ sk % p) ^ eph % p := by
    rw [← Nat.pow_mod, ← Nat.pow_mod, ← Nat.pow_mul, ← Nat.pow_mul, Nat.mul_comm]
  constructor
  · simpa only [lanHandshake, server_generate_kem_keypair, server_public_bytes,
      client_encapsulate, server_finalize] using key
  · simpa only [server_generate_kem_keypair, server_public_bytes,
      client_encapsulate, server_finalize] using key

/-! ### AeadCipher (spec §4.2) -/

/-- Modelled from the spec: `QuantumCrypto.encrypt` / `QuantumCrypto.decrypt`
as called from `LANChat.send_message` and `_handle_encrypted_message`
(src/src/network/lan_chat.py:149, 207) are absent from the `QuantumCrypto`
variant under src/.  The spec (§4.2) describes an AEAD whose `encrypt` draws
a fresh 12-byte nonce and returns nonce ‖ ciphertext ‖ tag, and whose
`decrypt` splits the first 12 bytes as the nonce, authenticates, and fails
with `AuthenticationError` (modelled as `none`) on tag mismatch.  The tag is
modelled as a perfectly binding MAC: an injective pairing of key, nonce and
ciphertext body. -/
def encodeL : List Nat → Nat
  | [] => 0
  | a :: l => Nat.pair a (encodeL l) + 1

def macTag (key nonce body : List Nat) : Nat :=
  Nat.pair (encodeL key) (Nat.pair (encodeL nonce) (encodeL body))

def aeadEncrypt (key nonce pt : List Nat) : List Nat :=
  nonce ++ xorCycle (key ++ nonce) pt ++ [macTag key nonce (xorCycle (key ++ nonce) pt)]

def aeadDecrypt (key payload : List Nat) : Option (List Nat) :=
  if payload.length < 13 then none
  else
    let nonce := payload.take 12
    let rest := payload.drop 12
    let body := rest.dropLast
    match rest.getLast? with
    | none => none
    | some tag =>
        if tag = macTag key nonce body then some (xorCycle (key ++ nonce) body)
        else none

theorem encodeL_inj : ∀ (l1 l2 : List Nat), encodeL l1 = encodeL l2 → l1 = l2 := by
  intro l1
  induction l1 with
  | nil =>
    intro l2 h
    cases l2 with
    | nil => rfl
    | cons b t => simp only [encodeL] at h; omega
  | cons a t ih =>
    intro l2 h
    cases l2 with
    | nil => simp only [encodeL] at h; omega
    | cons b t2 =>
      simp only [encodeL] at h
      have h2 : Nat.pair a (encodeL t) = Nat.pair b (encodeL t2) := by omega
      obtain ⟨rfl, h3⟩ := Nat.pair_eq_pair.1 h2
      rw [ih t2 h3]

theorem macTag_inj {key n1 b1 n2 b2 : List Nat} (h : macTag key n1 b1 = macTag key n2 b2) :
    n1 = n2 ∧ b1 = b2 := by
  have h1 := (Nat.pair_eq_pair.1 h).2
  have h2 := Nat.pair_eq_pair.1 h1
  exact ⟨encodeL_inj _ _ h2.1, encodeL_inj _ _ h2.2⟩

/-- C2: tampering with any single byte of the nonce or of the ciphertext of
an honestly produced payload makes `decrypt` fail with `AuthenticationError`
(`none`); it never returns a wrong plaintext. -/
theorem C2_tamper_fails_auth (key nonce pt : List Nat) (i v : Nat)
    (hn : nonce.length = 12) (hi : i < 12 + pt.length)
    (hv : v ≠ (aeadEncrypt key nonce pt).getD i 0) :
    aeadDecrypt key ((aeadEncrypt key nonce pt).set i v) = none := by
  have hbl : (xorCycle (key ++ nonce) pt).length = pt.length := length_xorCycle _ _
  have hpay : aeadEncrypt key nonce pt
      = nonce ++ (xorCycle (key ++ nonce) pt
          ++ [macTag key nonce (xorCycle (key ++ nonce) pt)]) := by
    simp [aeadEncrypt, List.append_assoc]
  rcases Nat.lt_or_ge i 12 with hcase | hcase
  · -- the tampered byte lies inside the nonce
    have hset : (aeadEncrypt key nonce pt).set i v
        = (nonce.set i v) ++ (xorCycle (key ++ nonce) pt
            ++ [macTag key nonce (xorCycle (key ++ nonce) pt)]) := by
      rw [hpay, List.set_append_left _ _ (by omega)]
    have hgd : (aeadEncrypt key nonce pt).getD i 0 = nonce.getD i 0 := by
      rw [hpay, List.getD_eq_getElem?_getD, List.getD_eq_getElem?_getD,
        List.getElem?_append_left (by omega)]
    have h12 : (nonce.set i v).length = 12 := by simp [hn]
    rw [hset]
    simp only [aeadDecrypt]
    rw [if_neg (by simp [h12, hbl]; omega)]
    rw [List.take_left' h12, List.drop_left' h12, List.dropLast_concat, List.getLast?_concat]
    simp only []
    rw [if_neg]
    intro heq
    have hinj := macTag_inj heq
    have hnn : nonce = nonce.set i v := hinj.1
    have hvv : nonce.getD i 0 = v := by
      rw [hnn, List.getD_eq_getElem?_getD, List.getElem?_eq_getElem (by simp [hn]; omega)]
      simp
    rw [hgd] at hv
    exact hv hvv.symm
  · -- the tampered byte lies inside the ciphertext body
    have hset : (aeadEncrypt key nonce pt).set i v
        = nonce ++ (((xorCycle (key ++ nonce) pt).set (i - 12) v)
            ++ [macTag key nonce (xorCycle (key ++ nonce) pt)]) := by
      rw [hpay, List.set_append_right _ _ (by omega), hn,
        List.set_append_left _ _ (by omega)]
    have hgd : (aeadEncrypt key nonce pt).getD i 0
        = (xorCycle (key ++ nonce) pt).getD (i - 12) 0 := by
      rw [hpay, List.getD_eq_getElem?_getD, List.getD_eq_getElem?_getD,
        List.getElem?_append_right (by omega), hn,
        List.getElem?_append_left (by omega)]
    have h12 : nonce.length = 12 := hn
    have hbl' : ((xorCycle (key ++ nonce) pt).set (i - 12) v).length = pt.length := by
      simp [hbl]
    rw [hset]
    simp only [aeadDecrypt]
    rw [if_neg (by simp [h12, hbl']; omega)]
    rw [List.take_left' h12, List.drop_left' h12, List.dropLast_concat, List.getLast?_concat]
    simp only []
    rw [if_neg]
    intro heq
    have hinj := macTag_inj heq
    have hbb : xorCycle (key ++ nonce) pt = (xorCycle (key ++ nonce) pt).set (i - 12) v :=
      hinj.2
    have hvv : (xorCycle (key ++ nonce) pt).getD (i - 12) 0 = v := by
      rw [hbb, List.getD_eq_getElem?_getD, List.getElem?_eq_getElem (by simp [hbl]; omega)]
      simp
    rw [hgd] at hv
    exact hv hvv.symm

/-- Witness for C2: key `[1]`, all-zero 12-byte nonce, plaintext `[7]`,
with payload byte 0 (a nonce byte) changed from 0 to 1. -/
theorem C2_tamper_fails_auth_witness :
    (1 : Nat) ≠ (aeadEncrypt [1] (List.replicate 12 0) [7]).getD 0 0 ∧
    aeadDecrypt [1] ((aeadEncrypt [1] (List.replicate 12 0) [7]).set 0 1) = none :=
  ⟨by decide, C2_tamper_fails_auth [1] (List.replicate 12 0) [7] 0 1
    (by decide) (by decide) (by decide)⟩

/-- C4: encryption with distinct fresh nonces yields distinct ciphertexts —
each call of `encrypt` draws a fresh 12-byte nonce (the draw is modelled by
the explicit nonce argument), so encrypting the same plaintext twice under
the same key yields different ciphertexts and the output is not a function
of (key, plaintext) alone. -/
theorem C4_nonce_freshness (key pt n1 n2 : List Nat)
    (h1 : n1.length = 12) (h2 : n2.length = 12) (hne : n1 ≠ n2) :
    aeadEncrypt key n1 pt ≠ aeadEncrypt key n2 pt := by
  intro h
  apply hne
  have ht := congrArg (List.take 12) h
  simp only [aeadEncrypt, List.append_assoc] at ht
  rwa [List.take_left' h1, List.take_left' h2] at ht

/-- Witness for C4: two distinct 12-byte nonces at key `[1]`, plaintext `[7]`. -/
theorem C4_nonce_freshness_witness :
    List.replicate 12 0 ≠ 1 :: List.replicate 11 (0 : Nat) ∧
    aeadEncrypt [1] (List.replicate 12 0) [7] ≠ aeadEncrypt [1] (1 :: List.replicate 11 0) [7] :=
  ⟨by decide, C4_nonce_freshness [1] [7] (List.replicate 12 0) (1 :: List.replicate 11 0)
    (by decide) (by decide) (by decide)⟩

/-! ### The LANChat connection registry (src/src/network/lan_chat.py)

A registry entry is the dict `{"sock": ..., "addr": ..., "shared": ...}`;
`sockOk` models whether `sendall` on the entry's socket succeeds.  Each
Python dict holds a fresh socket object, so `connections.remove(conn)`
removes exactly the entry that was appended. -/

structure Conn where
  addr : Nat
  shared : Option Nat
  sockOk : Bool
deriving DecidableEq

inductive Frame where
  | serverPub (pub : Nat)
  | clientBlob (blob : Nat)
  | message (nonce ct : List Nat)
  | file (nonce ct : List Nat)
deriving DecidableEq

/-- The environment's behavior after `sock.connect` succeeds in
`LANChat.connect_to_peer` (src/src/network/lan_chat.py:97-117).  The socket
has a 5-second timeout (line 99), so the `recv` inside `_recv_json` can
raise `socket.timeout`; it can instead signal a closed peer (`_recv_json`
returns `None`) or yield a record.  A record whose `type` is not
`handshake_server_pub` takes the clean `return False` path (lines 106-109);
one of the right type can still lack the `"public"` key (`KeyError` at
`msg["public"]`, line 110) or carry invalid base64 (`binascii.Error`, line
110); the spec (§4.1) lets `initiator_encapsulate` fail with
`HandshakeError` on a malformed key (line 111); and `sendall` inside
`_send_json` can raise (line 112).  `connect_to_peer` has no try/except, so
every raising constructor's exception escapes the call. -/
inductive DialEvent where
  | recvRaise
  | recvClosed
  | wrongType
  | missingPublic
  | badBase64
  | encapsulateRaise
  | sendRaise (pub : Nat)
  | good (pub : Nat)
deriving DecidableEq

/-- Outcome of a `connect_to_peer` call: a returned boolean or an escaped
exception, each carrying the trace of registry states up to that point. -/
inductive DialRes where
  | ok (tr : List (List Conn)) (ret : Bool)
  | raise (tr : List (List Conn))
deriving DecidableEq

/-- `LANChat.connect_to_peer` (src/src/network/lan_chat.py:97-117).  `tcpOk`
is the outcome of `sock.connect` (line 100): it raises before the registry
append, so its trace ends at the initial registry.  Every post-append
raising path of `DialEvent` escapes with the `shared=None` entry still
registered — there is no try/finally, so nothing removes it.  Only the
falsy / wrong-type message path closes the socket, removes the entry (lines
107-109) and returns `False`; on the good path the entry's shared secret is
set (line 113) before the call returns `True`.  On the `sendRaise` path the
secret has been computed (line 111) but `conn["shared"]` is not yet
assigned when `sendall` raises, so the entry still has `shared=None`.
`eph` makes the initiator's ephemeral randomness explicit.  Traces list the
registry before the call, after `self.connections.append(conn)` (line 102),
and at exit. -/
def connectToPeer (p g : Nat) (st : List Conn) (a : Nat) (tcpOk : Bool)
    (ev : DialEvent) (eph : Nat) : DialRes :=
  if !tcpOk then .raise [st]
  else
    let conn : Conn := ⟨a, none, true⟩
    let st1 := st ++ [conn]
    match ev with
    | .recvRaise => .raise [st, st1]
    | .recvClosed => .ok [st, st1, st] false
    | .wrongType => .ok [st, st1, st] false
    | .missingPublic => .raise [st, st1]
    | .badBase64 => .raise [st, st1]
    | .encapsulateRaise => .raise [st, st1]
    | .sendRaise _ => .raise [st, st1]
    | .good pub =>
        .ok [st, st1, st ++ [⟨a, some (client_encapsulate p g pub eph).2, true⟩]] true

/-- C3 counterexample: in a successful dial, `connect_to_peer` appends the
connection to the registry (lines 101-102) before the handshake runs; at
that point — trace position 1, before the handshake completes at position 2
— the entry's shared-secret field is still unset.  This refutes "a
connection is inserted into the registry only after its handshake has
succeeded and its shared-secret field is set, never before". -/
theorem C3_counterexample :
    connectToPeer 101 3 [] 7 true (DialEvent.good 9) 4
      = .ok [[], [⟨7, none, true⟩], [⟨7, some 97, true⟩]] true ∧
    (Conn.mk 7 none true).shared = none :=
  ⟨rfl, rfl⟩

/-- C3 amended: a connection is inserted into the registry at socket
establishment with an unset shared-secret field, before the handshake runs;
whenever `connect_to_peer` returns `True` the entry's shared secret has
been set by return time; when it returns `False` (peer closed, or a message
of the wrong type) the entry has been removed again and the registry is as
before the call; but on the handshake paths that raise — recv timeout,
missing `"public"` key, invalid base64, encapsulation or send failure — the
exception escapes and the entry remains registered with its shared secret
unset. -/
theorem C3_amended_registry (p g : Nat) (st : List Conn) (a : Nat)
    (ev : DialEvent) (eph : Nat) :
    (∀ tr ok, connectToPeer p g st a true ev eph = .ok tr ok →
      (ok = true → ∃ s, tr.getLast? = some (st ++ [⟨a, some s, true⟩])) ∧
      (ok = false → tr.getLast? = some st)) ∧
    (∀ tr, connectToPeer p g st a true ev eph = .raise tr →
      tr.getLast? = some (st ++ [⟨a, none, true⟩])) := by
  cases ev with
  | recvRaise =>
    refine ⟨fun tr ok h => ?_, fun tr h => ?_⟩
    · simp [connectToPeer] at h
    · simp only [connectToPeer, Bool.not_true, Bool.false_eq_true, if_false,
        DialRes.raise.injEq] at h
      subst h; rfl
  | recvClosed =>
    refine ⟨fun tr ok h => ?_, fun tr h => ?_⟩
    · simp only [connectToPeer, Bool.not_true, Bool.false_eq_true, if_false,
        DialRes.ok.injEq] at h
      obtain ⟨htr, hok⟩ := h
      subst htr; subst hok
      exact ⟨fun hc => Bool.noConfusion hc, fun _ => rfl⟩
    · simp [connectToPeer] at h
  | wrongType =>
    refine ⟨fun tr ok h => ?_, fun tr h => ?_⟩
    · simp only [connectToPeer, Bool.not_true, Bool.false_eq_true, if_false,
        DialRes.ok.injEq] at h
      obtain ⟨htr, hok⟩ := h
      subst htr; subst hok
      exact ⟨fun hc => Bool.noConfusion hc, fun _ => rfl⟩
    · simp [connectToPeer] at h
  | missingPublic =>
    refine ⟨fun tr ok h => ?_, fun tr h => ?_⟩
    · simp [connectToPeer] at h
    · simp only [connectToPeer, Bool.not_true, Bool.false_eq_true, if_false,
        DialRes.raise.injEq] at h
      subst h; rfl
  | badBase64 =>
    refine ⟨fun tr ok h => ?_, fun tr h => ?_⟩
    · simp [connectToPeer] at h
    · simp only [connectToPeer, Bool.not_true, Bool.false_eq_true, if_false,
        DialRes.raise.injEq] at h
      subst h; rfl
  | encapsulateRaise =>
    refine ⟨fun tr ok h => ?_, fun tr h => ?_⟩
    · simp [connectToPeer] at h
    · simp only [connectToPeer, Bool.not_true, Bool.false_eq_true, if_false,
        DialRes.raise.injEq] at h
      subst h; rfl
  | sendRaise pub =>
    refine ⟨fun tr ok h => ?_, fun tr h => ?_⟩
    · simp [connectToPeer] at h
    · simp only [connectToPeer, Bool.not_true, Bool.false_eq_true, if_false,
        DialRes.raise.injEq] at h
      subst h; rfl
  | good pub =>
    refine ⟨fun tr ok h => ?_, fun tr h => ?_⟩
    · simp only [connectToPeer, Bool.not_true, Bool.false_eq_true, if_false,
        DialRes.ok.injEq] at h
      obtain ⟨htr, hok⟩ := h
      subst htr; subst hok
      exact ⟨fun _ => ⟨_, rfl⟩, fun hc => Bool.noConfusion hc⟩
    · simp [connectToPeer] at h

/-- Witness for C3 (amended): the successful dial of the counterexample run
ends with the shared secret set, and a dial whose handshake recv times out
leaves the `shared=None` entry registered. -/
theorem C3_amended_registry_witness :
    (∃ s, ([[], [⟨7, none, true⟩], [⟨7, some 97, true⟩]] : List (List Conn)).getLast?
        = some ([] ++ [⟨7, some s, true⟩])) ∧
    ([[], [⟨7, none, true⟩]] : List (List Conn)).getLast?
        = some ([] ++ [⟨7, none, true⟩]) :=
  ⟨((C3_amended_registry 101 3 [] 7 (DialEvent.good 9) 4).1
      [[], [⟨7, none, true⟩], [⟨7, some 97, true⟩]] true rfl).1 rfl,
   (C3_amended_registry 101 3 [] 7 DialEvent.recvRaise 4).2
      [[], [⟨7, none, true⟩]] rfl⟩

/-- `LANChat.send_message` (src/src/network/lan_chat.py:142-158): iterates a
snapshot `list(self.connections)`; entries without a completed handshake are
skipped by `continue`; a send failure on a closed socket (`sockOk = false`)
raises inside the per-connection try and is swallowed; `ok_any` becomes
`True` on the first success and is returned.  The registry itself is never
modified.  Result: (registry after the call, addresses successfully sent to,
returned value). -/
def sendMessage (st : List Conn) : List Conn × List Nat × Bool :=
  let step := fun (acc : List Nat × Bool) (c : Conn) =>
    match c.shared with
    | none => acc
    | some _ => if c.sockOk then (acc.1 ++ [c.addr], true) else acc
  let res := st.foldl step ([], false)
  (st, res.1, res.2)

theorem sendMessage_foldl (st : List Conn) (acc : List Nat × Bool) :
    st.foldl (fun (acc : List Nat × Bool) (c : Conn) =>
        match c.shared with
        | none => acc
        | some _ => if c.sockOk then (acc.1 ++ [c.addr], true) else acc) acc
      = (acc.1 ++ (st.filter (fun c => c.shared.isSome && c.sockOk)).map Conn.addr,
         acc.2 || st.any (fun c => c.shared.isSome && c.sockOk)) := by
  induction st generalizing acc with
  | nil => simp
  | cons c t ih =>
    rcases c with ⟨ca, cs, ck⟩
    cases cs with
    | none => simp only [List.foldl_cons, List.filter_cons, List.any_cons]; simpa using ih acc
    | some s =>
      cases ck with
      | false => simp only [List.foldl_cons, List.filter_cons, List.any_cons]; simpa using ih acc
      | true =>
        simp only [List.foldl_cons, List.filter_cons, List.any_cons]
        rw [ih]
        simp

/-- C6 counterexample: with 3 registered peers of which 1 has a closed
socket, `send_message` returns the boolean `True` (its `ok_any` flag), not
the integer 2 — indeed it returns the very same value when 2 of the 3
sockets are closed, so the return value carries no count — and the closed
peer is still in the registry after the broadcast, not removed. -/
theorem C6_counterexample :
    sendMessage [⟨1, some 5, true⟩, ⟨2, some 6, false⟩, ⟨3, some 7, true⟩]
      = ([⟨1, some 5, true⟩, ⟨2, some 6, false⟩, ⟨3, some 7, true⟩], [1, 3], true) ∧
    sendMessage [⟨1, some 5, true⟩, ⟨2, some 6, false⟩, ⟨3, some 7, false⟩]
      = ([⟨1, some 5, true⟩, ⟨2, some 6, false⟩, ⟨3, some 7, false⟩], [1], true) ∧
    (⟨2, some 6, false⟩ : Conn)
      ∈ (sendMessage [⟨1, some 5, true⟩, ⟨2, some 6, false⟩, ⟨3, some 7, true⟩]).1 :=
  ⟨rfl, rfl, by decide⟩

/-- C6 amended: `send_message` iterates over every entry of a snapshot of
the registry without aborting early — every peer with a completed handshake
and working socket is sent to even if an earlier peer failed — and returns
the boolean `ok_any`, true iff at least one send succeeded; the registry is
left unchanged, so a failed peer is not removed by the broadcast (that
happens later in the peer's own reader thread). -/
theorem C6_amended_broadcast (st : List Conn) :
    sendMessage st
      = (st, (st.filter (fun c => c.shared.isSome && c.sockOk)).map Conn.addr,
         st.any (fun c => c.shared.isSome && c.sockOk)) := by
  simp only [sendMessage]
  rw [sendMessage_foldl]
  simp

/-- C7 counterexample: a dial whose TCP connection cannot be established
(`sock.connect`, line 100, sits outside any try block) does not yield a
failure return value: the exception escapes `connect_to_peer` to the caller
(`main.py` wraps the call in try/except for exactly this reason). -/
theorem C7_counterexample :
    connectToPeer 101 3 [] 7 false (DialEvent.good 9) 4 = .raise [[]] :=
  rfl

/-- C7 amended: `connect_to_peer` reports success (`True`) and the clean
handshake-protocol failures — peer closed, or a received record of the
wrong type — synchronously as a boolean return value; but a TCP connect
failure and every post-connect error path — a recv timeout, a type-correct
message missing its `"public"` key, invalid base64, an encapsulation
failure, a send failure — escape as exceptions to the caller rather than
being reported as a failure return. -/
theorem C7_amended_dial (p g : Nat) (st : List Conn) (a : Nat) (eph : Nat) :
    (∀ ev, ∃ tr, connectToPeer p g st a false ev eph = .raise tr) ∧
    (∀ pub, ∃ tr, connectToPeer p g st a true (DialEvent.good pub) eph = .ok tr true) ∧
    (∃ tr, connectToPeer p g st a true DialEvent.recvClosed eph = .ok tr false) ∧
    (∃ tr, connectToPeer p g st a true DialEvent.wrongType eph = .ok tr false) ∧
    (∃ tr, connectToPeer p g st a true DialEvent.recvRaise eph = .raise tr) ∧
    (∃ tr, connectToPeer p g st a true DialEvent.missingPublic eph = .raise tr) ∧
    (∃ tr, connectToPeer p g st a true DialEvent.badBase64 eph = .raise tr) ∧
    (∃ tr, connectToPeer p g st a true DialEvent.encapsulateRaise eph = .raise tr) ∧
    (∀ pub, ∃ tr, connectToPeer p g st a true (DialEvent.sendRaise pub) eph = .raise tr) :=
  ⟨fun _ => ⟨_, rfl⟩, fun _ => ⟨_, rfl⟩, ⟨_, rfl⟩, ⟨_, rfl⟩, ⟨_, rfl⟩, ⟨_, rfl⟩,
    ⟨_, rfl⟩, ⟨_, rfl⟩, fun _ => ⟨_, rfl⟩⟩

/-! ### `_recv_json` and the reader loops (src/src/network/lan_chat.py) -/

/-- `LANChat._recv_json` (src/src/network/lan_chat.py:244-256), one call.
The socket's pending data is the list of chunks that successive
`recv(4096)` calls return; an empty chunk is a closed peer, and an
exhausted chunk list likewise ends the stream.  `parse` models
`json.loads` applied to the first newline-terminated line (newline is byte
10); a parse failure returns `none` exactly like a closed socket.  The
local `buf` starts empty on every call and whatever follows the first
newline in it is dropped when the function returns.  Result: (parsed
record or `none`, chunks not yet consumed). -/
def recvJsonLoop (parse : List Nat → Option Frame) :
    List (List Nat) → List Nat → Option Frame × List (List Nat)
  | [], _ => (none, [])
  | c :: rest, buf =>
      if c = [] then (none, rest)
      else
        let buf2 := buf ++ c
        if 10 ∈ buf2 then
          (parse (buf2.takeWhile (fun b => b != 10)), rest)
        else recvJsonLoop parse rest buf2

def recvJson (parse : List Nat → Option Frame) (chunks : List (List Nat)) :
    Option Frame × List (List Nat) :=
  recvJsonLoop parse chunks []

theorem takeWhile_until_nl (r1 r2 : List Nat) (h1 : 10 ∉ r1) :
    (r1 ++ 10 :: r2).takeWhile (fun b => b != 10) = r1 := by
  induction r1 with
  | nil => simp [List.takeWhile_cons]
  | cons a t ih =>
    have ha : a ≠ 10 := fun e => h1 (by simp [e])
    have ht : 10 ∉ t := fun e => h1 (by simp [e])
    simp [List.takeWhile_cons, ha, ih ht]

/-- Each `_recv_json` call consumes at least the chunks it read: the
returned unconsumed stream is a suffix of the input's tail. -/
theorem recvJsonLoop_consumes (parse : List Nat → Option Frame) :
    ∀ (rest : List (List Nat)) (c : List Nat) (buf : List Nat),
      (recvJsonLoop parse (c :: rest) buf).2.length ≤ rest.length := by
  intro rest
  induction rest with
  | nil =>
    intro c buf
    simp only [recvJsonLoop]
    by_cases hc : c = []
    · simp [hc]
    · rw [if_neg hc]
      by_cases hnl : 10 ∈ buf ++ c
      · simp [hnl]
      · simp [hnl, recvJsonLoop]
  | cons c1 rest1 ih =>
    intro c buf
    simp only [recvJsonLoop]
    by_cases hc : c = []
    · simp [hc]
    · rw [if_neg hc]
      by_cases hnl : 10 ∈ buf ++ c
      · simp [hnl]
      · rw [if_neg hnl]
        exact le_trans (ih c1 (buf ++ c)) (by simp)

/-- C9: `_recv_json` starts every call with an empty local buffer and
returns as soon as the accumulated bytes contain a newline, parsing only
the first newline-terminated record; the bytes after that first newline
are discarded with the local buffer when the call returns, so when two
records arrive in one socket read the second is neither returned nor left
on the stream — it is silently lost. -/
theorem C9_recv_discards_after_newline (parse : List Nat → Option Frame)
    (r1 r2 : List Nat) (rest : List (List Nat)) (h1 : 10 ∉ r1) :
    recvJson parse ((r1 ++ 10 :: (r2 ++ [10])) :: rest) = (parse r1, rest) := by
  have hc : r1 ++ 10 :: (r2 ++ [10]) ≠ [] := by simp
  have hm : 10 ∈ r1 ++ 10 :: (r2 ++ [10]) := by simp
  simp only [recvJson, recvJsonLoop, hc, if_false, List.nil_append, hm, if_true,
    takeWhile_until_nl r1 (r2 ++ [10]) h1]

/-- Witness for C9: the read returns only the first record `[65]`; the
second record `[66]` is gone. -/
theorem C9_recv_discards_after_newline_witness :
    (10 ∉ [65]) ∧
    recvJson (fun _ => some (Frame.serverPub 0)) [[65, 10, 66, 10]]
      = (some (Frame.serverPub 0), []) :=
  ⟨by decide,
    C9_recv_discards_after_newline (fun _ => some (Frame.serverPub 0)) [65] [66] [] (by decide)⟩

/-- The receive loop of `LANChat._reader_for_conn`
(src/src/network/lan_chat.py:119-139) and of `_handle_client` (lines
76-84): repeatedly `_recv_json`; a falsy result breaks the loop; `handled`
collects the frames dispatched to the frame handlers.  Each successful
`_recv_json` consumes at least one chunk (`recvJsonLoop_consumes`), so
starting the fuel at `chunks.length` never cuts the loop short. -/
def readerLoop (parse : List Nat → Option Frame) :
    Nat → List (List Nat) → List Frame → List Frame
  | 0, _, acc => acc
  | fuel + 1, chunks, acc =>
      match recvJson parse chunks with
      | (none, _) => acc
      | (some f, rem) => readerLoop parse fuel rem (acc ++ [f])

/-- `LANChat._reader_for_conn`: after the loop the socket is closed and the
`finally` block removes the connection from the registry (`list.remove`
removes the first equal entry and the dict is only equal to itself).
Result: (registry after, frames handled). -/
def readerForConn (parse : List Nat → Option Frame) (conn : Conn) (st : List Conn)
    (chunks : List (List Nat)) : List Conn × List Frame :=
  (st.erase conn, readerLoop parse chunks.length chunks [])

/-- C10: a line that is not valid JSON makes `_recv_json` return `None` —
the very value it returns when the peer closes the socket — so the reader
loop treats one malformed frame exactly like end-of-stream: no frame is
dispatched (even frames queued behind the bad one), the loop exits, and
the connection is removed from the registry, identically to a closed
socket. -/
theorem C10_malformed_line_acts_as_close (parse : List Nat → Option Frame)
    (bad : List Nat) (rest : List (List Nat)) (conn : Conn) (st : List Conn)
    (hbad : parse bad = none) (hnl : 10 ∉ bad) :
    recvJson parse ((bad ++ [10]) :: rest) = (none, rest) ∧
    recvJson parse ([] :: rest) = (none, rest) ∧
    readerForConn parse conn st ((bad ++ [10]) :: rest) = (st.erase conn, []) ∧
    readerForConn parse conn st [] = (st.erase conn, []) := by
  have hA : recvJson parse ((bad ++ [10]) :: rest) = (none, rest) := by
    have hc : bad ++ [10] ≠ [] := by simp
    have hm : 10 ∈ bad ++ [10] := by simp
    have ht : (bad ++ [10]).takeWhile (fun b => b != 10) = bad := by
      simpa using takeWhile_until_nl bad [] hnl
    simp only [recvJson, recvJsonLoop, hc, if_false, List.nil_append, hm, if_true, ht, hbad]
  refine ⟨hA, by simp [recvJson, recvJsonLoop], ?_, by simp [readerForConn, readerLoop]⟩
  simp only [readerForConn, List.length_cons, readerLoop, hA]

/-- Witness for C10: the record `[66]` fails to parse; the follow-up good
record `[65]` queued behind it is never dispatched and the connection is
dropped, exactly as for a closed socket. -/
theorem C10_malformed_line_acts_as_close_witness :
    ((fun l => if l = [65] then some (Frame.serverPub 0) else none) [66]
        = (none : Option Frame)) ∧
    (10 ∉ [66]) ∧
    (recvJson (fun l => if l = [65] then some (Frame.serverPub 0) else none)
        (([66] ++ [10]) :: [[65, 10]]) = (none, [[65, 10]]) ∧
     recvJson (fun l => if l = [65] then some (Frame.serverPub 0) else none)
        ([] :: [[65, 10]]) = (none, [[65, 10]]) ∧
     readerForConn (fun l => if l = [65] then some (Frame.serverPub 0) else none)
        ⟨1, some 2, true⟩ [⟨1, some 2, true⟩] (([66] ++ [10]) :: [[65, 10]])
        = ([⟨1, some 2, true⟩].erase ⟨1, some 2, true⟩, []) ∧
     readerForConn (fun l => if l = [65] then some (Frame.serverPub 0) else none)
        ⟨1, some 2, true⟩ [⟨1, some 2, true⟩] []
        = ([⟨1, some 2, true⟩].erase ⟨1, some 2, true⟩, [])) :=
  ⟨rfl, by decide,
    C10_malformed_line_acts_as_close (fun l => if l = [65] then some (Frame.serverPub 0) else none)
      [66] [[65, 10]] ⟨1, some 2, true⟩ [⟨1, some 2, true⟩] rfl (by decide)⟩

/-! ### Destination names for received files
(`LANChat._handle_encrypted_file`, src/src/network/lan_chat.py:212-237) -/

/-- Index of the last `'.'` in a name, as `str.rfind('.')` computes it. -/
def rfindDot : List Char → Option Nat
  | [] => none
  | c :: cs =>
      match rfindDot cs with
      | some i => some (i + 1)
      | none => if c = '.' then some 0 else none

/-- `os.path.splitext` on a bare file name (no path separators): split at
the last dot unless every character before that dot is itself a dot. -/
def splitext (p : List Char) : List Char × List Char :=
  match rfindDot p with
  | none => (p, [])
  | some d =>
      if (p.take d).all (fun c => c == '.') then (p, [])
      else (p.take d, p.drop d)

/-- Decimal rendering of a natural, as Python's `str(i)` inside the
f-string `f"{base}_{i}{ext}"`; the fuel argument makes the division loop
structural (`n` itself is always enough fuel). -/
def natCharsAux : Nat → Nat → List Char
  | 0, _ => []
  | fuel + 1, n =>
      if n = 0 then []
      else natCharsAux fuel (n / 10) ++ [Char.ofNat (48 + n % 10)]

def natChars (n : Nat) : List Char :=
  if n = 0 then ['0'] else natCharsAux n n

def charsToNat (l : List Char) : Nat :=
  l.foldl (fun acc c => acc * 10 + (c.toNat - 48)) 0

theorem digitChar_toNat : ∀ d < 10, (Char.ofNat (48 + d)).toNat = 48 + d := by decide

theorem charsToNat_aux (fuel : Nat) : ∀ n a, n ≤ fuel →
    (natCharsAux fuel n).foldl (fun acc c => acc * 10 + (c.toNat - 48)) a
      = a * 10 ^ (natCharsAux fuel n).length + n := by
  induction fuel with
  | zero =>
    intro n a hn
    have : n = 0 := by omega
    subst this
    simp [natCharsAux]
  | succ fuel ih =>
    intro n a hn
    by_cases h0 : n = 0
    · subst h0; simp [natCharsAux]
    · have hd : n / 10 ≤ fuel := by omega
      simp only [natCharsAux, h0, if_false, List.foldl_append, List.foldl_cons,
        List.foldl_nil, List.length_append, List.length_cons, List.length_nil]
      rw [ih (n / 10) a hd]
      have hc : (Char.ofNat (48 + n % 10)).toNat - 48 = n % 10 := by
        have := digitChar_toNat (n % 10) (by omega)
        omega
      rw [hc]
      have hn10 : 10 * (n / 10) + n % 10 = n := Nat.div_add_mod n 10
      have hr : (a * 10 ^ (natCharsAux fuel (n / 10)).length + n / 10) * 10 + n % 10
          = a * 10 ^ ((natCharsAux fuel (n / 10)).length + 1) + (10 * (n / 10) + n % 10) := by
        rw [pow_succ]
        ring
      rw [hr, hn10]

theorem charsToNat_natChars (n : Nat) : charsToNat (natChars n) = n := by
  by_cases h0 : n = 0
  · subst h0; decide
  · simp only [natChars, h0, if_false, charsToNat]
    have := charsToNat_aux n n 0 le_rfl
    simpa using this

theorem natChars_inj {n m : Nat} (h : natChars n = natChars m) : n = m := by
  have h5 := congrArg charsToNat h
  rwa [charsToNat_natChars, charsToNat_natChars] at h5

/-- The candidate name `f"{base}_{i}{ext}"`. -/
def candName (base ext : List Char) (i : Nat) : List Char :=
  base ++ '_' :: (natChars i ++ ext)

theorem candName_inj {base ext : List Char} {i j : Nat}
    (h : candName base ext i = candName base ext j) : i = j := by
  have h1 : '_' :: (natChars i ++ ext) = '_' :: (natChars j ++ ext) :=
    List.append_cancel_left h
  have h2 : natChars i ++ ext = natChars j ++ ext := by injection h1
  have hlen : (natChars i).length = (natChars j).length := by
    have h3 := congrArg List.length h2
    simp only [List.length_append] at h3
    omega
  exact natChars_inj (List.append_inj_left h2 hlen)

theorem splitext_append (p : List Char) : (splitext p).1 ++ (splitext p).2 = p := by
  unfold splitext
  cases h : rfindDot p with
  | none => simp
  | some d =>
      by_cases hall : (p.take d).all (fun c => c == '.')
      · simp [hall]
      · simp [hall, List.take_append_drop]

/-- `ext = os.path.splitext(fname)[1] or ".png"` (line 224): Python's `or`
substitutes `".png"` when the extension is the empty, falsy string. -/
def extWithDefault (fname : List Char) : List Char :=
  if (splitext fname).2 = [] then ['.', 'p', 'n', 'g'] else (splitext fname).2

theorem candName_ne_fname (fname : List Char) (i : Nat) :
    candName (splitext fname).1 (extWithDefault fname) i ≠ fname := by
  intro h
  have hl := congrArg List.length h
  have hsp := congrArg List.length (splitext_append fname)
  by_cases he : (splitext fname).2 = []
  · simp [candName, extWithDefault, he] at hl hsp
    omega
  · simp [candName, extWithDefault, he] at hl hsp
    omega

/-- The while loop on lines 226-229: starting from the received name, while
the chosen name already exists in the receive directory, retry as
`f"{base}_{i}{ext}"` with `i` incremented.  The loop tries pairwise-distinct
candidate names, so it leaves the directory's name set after at most
`existing.length` collisions; the model materialises the candidates the
loop would try in order and takes the first that does not exist. -/
def uniqueDest (existing : List (List Char)) (fname : List Char) : Option (List Char) :=
  (fname :: (List.range' 1 (existing.length + 1)).map
      (candName (splitext fname).1 (extWithDefault fname))).find?
    (fun c => decide (c ∉ existing))

theorem cands_nodup (existing : List (List Char)) (fname : List Char) :
    (fname :: (List.range' 1 (existing.length + 1)).map
        (candName (splitext fname).1 (extWithDefault fname))).Nodup := by
  rw [List.nodup_cons]
  refine ⟨?_, ?_⟩
  · intro hmem
    rcases List.mem_map.1 hmem with ⟨i, _, hcand⟩
    exact candName_ne_fname fname i hcand
  · exact (List.nodup_range' 1 (existing.length + 1)).map
      (fun i j h => candName_inj h)

theorem find?_fresh (cands existing : List (List Char)) (hnd : cands.Nodup)
    (hlen : existing.length < cands.length) :
    ∃ out, cands.find? (fun c => decide (c ∉ existing)) = some out ∧ out ∉ existing := by
  cases hfind : cands.find? (fun c => decide (c ∉ existing)) with
  | none =>
    exfalso
    have hall := List.find?_eq_none.1 hfind
    have hsub : cands ⊆ existing := by
      intro c hc
      have hx := hall c hc
      simp only [decide_eq_true_eq] at hx
      exact not_not.1 hx
    have h1 : cands.toFinset.card = cands.length := List.toFinset_card_of_nodup hnd
    have h2 : cands.toFinset ⊆ existing.toFinset := fun x hx =>
      List.mem_toFinset.2 (hsub (List.mem_toFinset.1 hx))
    have h3 := Finset.card_le_card h2
    have h4 : existing.toFinset.card ≤ existing.length := List.toFinset_card_le existing
    omega
  | some out =>
    refine ⟨out, rfl, ?_⟩
    have := List.find?_some hfind
    simpa using this

def photoPng : List Char := ['p', 'h', 'o', 't', 'o', '.', 'p', 'n', 'g']

def photo1Png : List Char := ['p', 'h', 'o', 't', 'o', '_', '1', '.', 'p', 'n', 'g']

def photo2Png : List Char := ['p', 'h', 'o', 't', 'o', '_', '2', '.', 'p', 'n', 'g']

/-- C8: the destination chosen for a received file always exists and never
collides with a name already in the receive directory — existing files are
never overwritten — and it is either the received name itself or the base
suffixed `_i` (incrementing counter) before the extension.  In particular a
second `photo.png` is written as `photo_1.png` and a third as
`photo_2.png`. -/
theorem C8_fresh_destination_name :
    (∀ (existing : List (List Char)) (fname : List Char),
      ∃ out, uniqueDest existing fname = some out ∧ out ∉ existing ∧
        (out = fname ∨ ∃ i, 1 ≤ i ∧
          out = candName (splitext fname).1 (extWithDefault fname) i)) ∧
    uniqueDest [photoPng] photoPng = some photo1Png ∧
    uniqueDest [photoPng, photo1Png] photoPng = some photo2Png := by
  refine ⟨?_, by decide, by decide⟩
  intro existing fname
  obtain ⟨out, hfind, hnotmem⟩ :=
    find?_fresh _ existing (cands_nodup existing fname)
      (by simp only [List.length_cons, List.length_map, List.length_range']; omega)
  refine ⟨out, hfind, hnotmem, ?_⟩
  have hmem := List.mem_of_find?_eq_some hfind
  rcases List.mem_cons.1 hmem with h | h
  · exact Or.inl h
  · rcases List.mem_map.1 h with ⟨i, hir, rfl⟩
    have hi := List.mem_range'_1.1 hir
    exact Or.inr ⟨i, hi.1, rfl⟩

end QRChat
